import Mathlib

/-!
# Verification of the TechSoC-25 repository

Shallow embedding of the two exercises in the repository:

* `Problem_Statement_0/CALCULATOR.cpp` — a scientific calculator built from
  first principles.  C++ `double` is modelled as `ℚ` (exact arithmetic),
  C++ `int` and `long` as `ℤ`.  A function that prints an error message and
  returns a sentinel is modelled as returning the sentinel paired with
  `Option String` carrying the message it prints (`none` = no output).
* `Problem_Statement_1/Ceaser_Cipher.cpp` and `Problem_Statement_1/Level2.cpp`
  — Caesar-cipher tools.  C++ `char` is a machine integer, so characters are
  modelled by their (natural-number) character codes and strings by
  `List ℕ`; arithmetic on characters that may go negative is carried out in
  `ℤ`, with `Int.tmod` for the C++ `%` operator (which truncates toward
  zero).
-/

namespace Calc

/-- The source's global constant `const double e = 2.718281828;`. -/
def eC : ℚ := 2718281828 / 1000000000

/-- Loop of `double power(double num, int p)`:
`for (int i = 0; i < p; i++) res *= num;`, as a recursion on the number of
remaining iterations, threading the accumulator `res`. -/
def powerLoop (num : ℚ) : ℕ → ℚ → ℚ
  | 0, res => res
  | n + 1, res => powerLoop num n (res * num)

/-- `double power(double num, int p)`: the `for` loop executes
`max p 0` (that is, `p.toNat`) times starting from `res = 1`. -/
def power (num : ℚ) (p : ℤ) : ℚ := powerLoop num p.toNat 1

/-- `double abso(double x) { return (x < 0) ? -x : x; }` -/
def abso (x : ℚ) : ℚ := if x < 0 then -x else x

/-- Loop of `long fact(int x)`: `while (x > 1) { pro *= x; x--; }`,
threading the accumulator `pro`.  (`long` is a fixed-width integer that can
overflow silently; the claims checked here never reach an overflowing
product, so the accumulator is modelled as `ℤ`.) -/
def factGo (x : ℤ) (pro : ℤ) : ℤ :=
  if 1 < x then factGo (x - 1) (pro * x) else pro
termination_by x.toNat
decreasing_by omega

/-- `long fact(int x)`. -/
def fact (x : ℤ) : ℤ := factGo x 1

/-- The C cast `(int)num`: truncation toward zero (floor for non-negative
values, ceiling for negative ones). -/
def trunc (q : ℚ) : ℤ := if q < 0 then ⌈q⌉ else ⌊q⌋

/-- `bool hasDecimal(double num) { return abso(num - (int)num) > 1e-9; }` -/
def hasDecimal (num : ℚ) : Bool :=
  decide (abso (num - (trunc num : ℚ)) > 1 / 10 ^ 9)

lemma powerLoop_eq (num : ℚ) : ∀ (n : ℕ) (res : ℚ),
    powerLoop num n res = res * num ^ n := by
  intro n
  induction n with
  | zero => intro res; simp [powerLoop]
  | succ m ih =>
      intro res
      rw [powerLoop, ih]
      ring

lemma power_eq_pow (b : ℚ) (n : ℕ) : power b (n : ℤ) = b ^ n := by
  rw [power, powerLoop_eq, one_mul, Int.toNat_natCast]

lemma abso_eq_abs (x : ℚ) : abso x = |x| := by
  rw [abso]
  split
  · exact (abs_of_neg (by assumption)).symm
  · exact (abs_of_nonneg (not_lt.mp (by assumption))).symm

/-- One term `y` of the `lnNear1` do-while loop at counter `cnt`:
`double sign = (cnt % 2 == 0) ? -1 : 1; y = sign * power(z, cnt) / cnt;`. -/
def lnTerm (z : ℚ) (cnt : ℕ) : ℚ :=
  (if cnt % 2 = 0 then (-1 : ℚ) else 1) * power z cnt / cnt

/-- Termination predicate of the `lnNear1` do-while loop
`do { ... } while (abso(y) > 1e-10);`: some term from `cnt = 1` on has
magnitude `≤ 1e-10`.  The loop stops right after adding the first such
term; on arguments where no term ever gets that small the C++ loop never
returns, so the embedded `lnNear1` below is defined on this domain. -/
def lnConv (z : ℚ) : Prop := ∃ n : ℕ, abso (lnTerm z (n + 1)) ≤ 1 / 10 ^ 10

/-- The number of iterations the `lnNear1` loop performs: the counter value
of the first term with magnitude `≤ 1e-10` (the loop body has run for
`cnt = 1, …, lnStop` when the guard first fails). -/
def lnStop (z : ℚ) (h : lnConv z) : ℕ := Nat.find h + 1

/-- `double lnNear1(double cnum)` (Taylor series for `ln` near 1) on the
domain where its loop terminates: the sum of the terms `y` the do-while
loop accumulates into `result`. -/
def lnNear1 (cnum : ℚ) (h : lnConv (cnum - 1)) : ℚ :=
  ∑ i in Finset.range (lnStop (cnum - 1) h), lnTerm (cnum - 1) (i + 1)

lemma eC_pos : (0 : ℚ) < eC := by norm_num [eC]

lemma one_lt_eC : (1 : ℚ) < eC := by norm_num [eC]

/-- The loop `while (num > 1.5) { num /= e; k++; }` terminates on every
positive argument: some power of `e` divides the argument down to `≤ 1.5`. -/
lemma exists_div_le (x : ℚ) (hx : 0 < x) : ∃ n : ℕ, x / eC ^ n ≤ 3 / 2 := by
  obtain ⟨n, hn⟩ := pow_unbounded_of_one_lt (α := ℚ) x one_lt_eC
  refine ⟨n, ?_⟩
  rw [div_le_iff₀ (pow_pos eC_pos n)]
  nlinarith [pow_pos eC_pos n]

/-- The loop `while (num < 0.5) { num *= e; k--; }` terminates on every
positive argument. -/
lemma exists_mul_ge (x : ℚ) (hx : 0 < x) : ∃ n : ℕ, 1 / 2 ≤ x * eC ^ n := by
  obtain ⟨n, hn⟩ := pow_unbounded_of_one_lt (α := ℚ) x⁻¹ one_lt_eC
  refine ⟨n, ?_⟩
  have h2 := mul_lt_mul_of_pos_left hn hx
  rw [mul_inv_cancel₀ hx.ne'] at h2
  linarith

/-- Iteration count of the first reduction loop of `ln`,
`while (num > 1.5) { num /= e; k++; }`: the loop runs until the guard first
fails, i.e. exactly `least n with x / e^n ≤ 1.5` times. -/
def lnDivCount (x : ℚ) (hx : 0 < x) : ℕ := Nat.find (exists_div_le x hx)

lemma lnDivRem_pos (x : ℚ) (hx : 0 < x) : 0 < x / eC ^ lnDivCount x hx :=
  div_pos hx (pow_pos eC_pos _)

/-- Iteration count of the second reduction loop of `ln`,
`while (num < 0.5) { num *= e; k--; }`, started on a positive value. -/
def lnMulCount (x : ℚ) (hx : 0 < x) : ℕ := Nat.find (exists_mul_ge x hx)

/-- The argument reduction performed by `ln` on a positive argument: the
value of `num` after both `while` loops, paired with the net counter `k`
(number of divisions minus number of multiplications). -/
def lnReduce (x : ℚ) (hx : 0 < x) : ℚ × ℤ :=
  ((x / eC ^ lnDivCount x hx)
      * eC ^ lnMulCount (x / eC ^ lnDivCount x hx) (lnDivRem_pos x hx),
   (lnDivCount x hx : ℤ)
      - (lnMulCount (x / eC ^ lnDivCount x hx) (lnDivRem_pos x hx) : ℤ))

lemma lnReduce_mem (x : ℚ) (hx : 0 < x) :
    1 / 2 ≤ (lnReduce x hx).1 ∧ (lnReduce x hx).1 ≤ 3 / 2 := by
  have hr1pos : 0 < x / eC ^ lnDivCount x hx := lnDivRem_pos x hx
  have hge := Nat.find_spec (exists_mul_ge _ hr1pos)
  refine ⟨hge, ?_⟩
  rcases Nat.eq_zero_or_pos (lnMulCount _ hr1pos) with h0 | hpos
  · have hdiv := Nat.find_spec (exists_div_le x hx)
    have : (lnReduce x hx).1 = x / eC ^ lnDivCount x hx := by
      rw [lnReduce]
      simp only [lnMulCount] at h0 ⊢
      rw [h0, pow_zero, mul_one]
    rw [this]
    exact hdiv
  · have hmin := Nat.find_min (exists_mul_ge _ hr1pos)
      (show lnMulCount _ hr1pos - 1 < lnMulCount _ hr1pos from by omega)
    rw [not_le] at hmin
    have hsucc : lnMulCount _ hr1pos = (lnMulCount _ hr1pos - 1) + 1 := by omega
    have : (lnReduce x hx).1
        = (x / eC ^ lnDivCount x hx) * eC ^ ((lnMulCount _ hr1pos - 1) + 1) := by
      rw [lnReduce, ← hsucc]
    rw [this, pow_succ, ← mul_assoc]
    have heC : eC ≤ 3 := by norm_num [eC]
    nlinarith [hmin, eC_pos]

lemma lnReduce_eq (x : ℚ) (hx : 0 < x) :
    x = (lnReduce x hx).1 * eC ^ (lnReduce x hx).2 := by
  have hne : eC ≠ 0 := ne_of_gt eC_pos
  rw [lnReduce]
  simp only
  rw [mul_assoc, ← zpow_natCast eC (lnMulCount _ (lnDivRem_pos x hx)),
    ← zpow_add₀ hne]
  have harith :
      (lnMulCount _ (lnDivRem_pos x hx) : ℤ)
        + ((lnDivCount x hx : ℤ) - (lnMulCount _ (lnDivRem_pos x hx) : ℤ))
        = (lnDivCount x hx : ℤ) := by omega
  rw [harith, zpow_natCast, div_mul_cancel₀ x (pow_ne_zero _ hne)]

lemma lnConv_of_abso_le (z : ℚ) (hz : abso z ≤ 1 / 2) : lnConv z := by
  refine ⟨39, ?_⟩
  have key : lnTerm z 40 = -1 * z ^ 40 / 40 := by
    rw [lnTerm, power_eq_pow, if_pos (by norm_num)]
    norm_num
  show abso (lnTerm z (39 + 1)) ≤ 1 / 10 ^ 10
  rw [show (39 + 1 : ℕ) = 40 from rfl, abso_eq_abs, key,
    abs_div, abs_mul, abs_neg, abs_one, one_mul, abs_pow,
    show |(40 : ℚ)| = 40 from by norm_num]
  rw [abso_eq_abs] at hz
  have h40 : |z| ^ 40 ≤ (1 / 2 : ℚ) ^ 40 :=
    pow_le_pow_left₀ (abs_nonneg z) hz 40
  calc |z| ^ 40 / 40 ≤ (1 / 2 : ℚ) ^ 40 / 40 := by linarith
    _ ≤ 1 / 10 ^ 10 := by norm_num

lemma lnConv_reduced (x : ℚ) (hx : 0 < x) :
    lnConv ((lnReduce x hx).1 - 1) := by
  apply lnConv_of_abso_le
  have h := lnReduce_mem x hx
  rw [abso]
  split <;> linarith [h.1, h.2]

/-- `double ln(double num)`: error branches for `0` and negative input, and
for positive input the two reduction loops followed by
`return k + lnNear1(num);`. -/
def ln (num : ℚ) : ℚ × Option String :=
  if h1 : num = 0 then (0, some "NOT DEFINED")
  else if h2 : num < 0 then (0, some "Invalid Input")
  else
    have hx : 0 < num := lt_of_le_of_ne (not_lt.mp h2) (Ne.symm h1)
    (((lnReduce num hx).2 : ℚ)
        + lnNear1 (lnReduce num hx).1 (lnConv_reduced num hx), none)

/-- The Newton–Raphson loop of `mySqrt`,
`for (int i = 0; i < 100; i++) guess = (guess + x / guess) / 2;`, as a
recursion on the number of remaining iterations. -/
def nrLoop (x : ℚ) : ℕ → ℚ → ℚ
  | 0, guess => guess
  | n + 1, guess => nrLoop x n ((guess + x / guess) / 2)

/-- `double mySqrt(double x)`: error for negative input, otherwise exactly
100 fixed iterations starting from `guess = x / 2`. -/
def mySqrt (x : ℚ) : ℚ × Option String :=
  if x < 0 then (0, some "Error: Square root of negative number!")
  else (nrLoop x 100 (x / 2), none)

/-- One guarded Newton–Raphson step: the division `x / guess` is performed
only when the divisor is nonzero; a zero divisor is reported as `none`. -/
def nrStepG (x guess : ℚ) : Option ℚ :=
  if guess = 0 then none else some ((guess + x / guess) / 2)

/-- The guarded 100-iteration loop: `none` records that some iteration
reached the division-by-zero branch. -/
def nrLoopG (x : ℚ) : ℕ → ℚ → Option ℚ
  | 0, guess => some guess
  | n + 1, guess =>
      match nrStepG x guess with
      | none => none
      | some g => nrLoopG x n g

/-- `mySqrt` with every division guarded. -/
def mySqrtG (x : ℚ) : Option (ℚ × Option String) :=
  if x < 0 then some (0, some "Error: Square root of negative number!")
  else (nrLoopG x 100 (x / 2)).map (fun g => (g, none))

end Calc

namespace Cipher

/-!
`Ceaser_Cipher.cpp`: after normalizing the shift with C++ `%` (truncating,
`Int.tmod`), each character is rotated inside its own case range and
non-letters pass through unchanged.
-/

/-- One character of the `Ceaser_Cipher.cpp` loop body, for an
already-normalized shift `sv`:
`if ('a' <= ch && ch <= 'z') ch = 'a' + (ch - 'a' + sv + 26) % 26;`
`else if ('A' <= ch && ch <= 'Z') ch = 'A' + (ch - 'A' + sv + 26) % 26;`. -/
def caesarChar (sv : ℤ) (c : ℕ) : ℕ :=
  if 97 ≤ c ∧ c ≤ 122 then (((c : ℤ) - 97 + sv + 26).tmod 26 + 97).toNat
  else if 65 ≤ c ∧ c ≤ 90 then (((c : ℤ) - 65 + sv + 26).tmod 26 + 65).toNat
  else c

/-- The whole `Ceaser_Cipher.cpp` transformation: normalize the shift with
`sv = sv % 26` (C++ truncating `%`), then rotate every character. -/
def caesarStr (sv : ℤ) (s : List ℕ) : List ℕ := s.map (caesarChar (sv.tmod 26))

/-!
`Level2.cpp`: the brute-force breaker.  For each shift `1..25` it decodes
the ciphertext with `(ch - 'a' - shift + 26) % 26 + 'a'` on lowercase
characters (others unchanged), counts lowercase vowels in the decoding, and
keeps the strictly best candidate.
-/

/-- One character of the `Level2.cpp` decode loop:
`newChar = (ch - 'a' - shift + 26) % 26 + 'a'` on lowercase input,
other characters kept unchanged. -/
def decodeChar (shift : ℤ) (c : ℕ) : ℕ :=
  if 97 ≤ c ∧ c ≤ 122 then (((c : ℤ) - 97 - shift + 26).tmod 26 + 97).toNat
  else c

/-- The vowel test of `Level2.cpp` (lowercase vowels only). -/
def isVowel (c : ℕ) : Bool :=
  c == 97 || c == 101 || c == 105 || c == 111 || c == 117

/-- The decoded candidate text for one shift. -/
def decodeStr (shift : ℤ) (s : List ℕ) : List ℕ := s.map (decodeChar shift)

/-- The `vowelCount` computed for one shift: the decode loop increments the
counter exactly when the (lowercase-branch) decoded character is a vowel. -/
def shiftScore (shift : ℤ) (s : List ℕ) : ℕ :=
  s.foldl (fun acc c =>
    if 97 ≤ c ∧ c ≤ 122 then
      (if isVowel (decodeChar shift c) then acc + 1 else acc)
    else acc) 0

/-- The candidate shifts of `for (int shift = 1; shift <= 25; shift++)`. -/
def shiftList : List ℤ := (List.range' 1 25).map (fun n => (n : ℤ))

/-- The selection loop of `Level2.cpp`, threading the state
`(bestShift, bestScore, bestText)`; an update happens exactly when
`vowelCount > bestScore` (strict, so ties keep the earlier shift). -/
def breakLoop (s : List ℕ) : List ℤ → ℤ × ℤ × List ℕ → ℤ × ℤ × List ℕ
  | [], st => st
  | shift :: rest, (bs, bsc, bt) =>
      if (shiftScore shift s : ℤ) > bsc then
        breakLoop s rest (shift, (shiftScore shift s : ℤ), decodeStr shift s)
      else breakLoop s rest (bs, bsc, bt)

/-- The whole `Level2.cpp` search: `bestShift = 0`, `bestScore = -1`, and an
arbitrary initial `bestText` (the C++ array is uninitialized; it is
irrelevant because the first candidate always scores `≥ 0 > -1`). -/
def breakCipher (s : List ℕ) : ℤ × ℤ × List ℕ := breakLoop s shiftList (0, -1, [])

end Cipher

namespace Calc

/-- **C7.** For every base `b` (including `b = 0`), `power b 0 = 1`; and for
every non-negative exponent `p`, `power b p` is the product of `p` copies of
`b` computed by repeated multiplication. -/
theorem power_zero_eq_one_and_nonneg_exponent_eq_pow (b : ℚ) (p : ℤ)
    (hp : 0 ≤ p) : power b 0 = 1 ∧ power b p = b ^ p.toNat := by
  refine ⟨?_, ?_⟩
  · simp [power, powerLoop]
  · simp [power, powerLoop_eq]

/-- Witness for C7 at base `0`, exponent `3`. -/
theorem power_zero_eq_one_and_nonneg_exponent_eq_pow_witness :
    0 ≤ (3 : ℤ) ∧ (power 0 0 = 1 ∧ power 0 3 = (0 : ℚ) ^ (3 : ℤ).toNat) :=
  ⟨by decide, power_zero_eq_one_and_nonneg_exponent_eq_pow 0 3 (by decide)⟩

/-- **C9.** For every negative exponent `p`, `power b p = 1` for every base
`b`: the multiplication loop body never executes, so a negative exponent is
silently treated like exponent `0`. -/
theorem power_neg_exponent_eq_one (b : ℚ) (p : ℤ) (hp : p < 0) :
    power b p = 1 := by
  have h0 : p.toNat = 0 := Int.toNat_of_nonpos hp.le
  simp [power, h0, powerLoop]

/-- Witness for C9 at base `5`, exponent `-2`. -/
theorem power_neg_exponent_eq_one_witness :
    (-2 : ℤ) < 0 ∧ power 5 (-2) = 1 :=
  ⟨by decide, power_neg_exponent_eq_one 5 (-2) (by decide)⟩

/-- **C10.** `fact` returns `1` for every integer argument `≤ 1`, including
`0` and all negative inputs: the accumulation loop only runs while the
argument exceeds `1`. -/
theorem fact_of_le_one_eq_one (x : ℤ) (hx : x ≤ 1) : fact x = 1 := by
  rw [fact, factGo, if_neg (by omega)]

/-- Witness for C10 at input `-7`. -/
theorem fact_of_le_one_eq_one_witness : (-7 : ℤ) ≤ 1 ∧ fact (-7) = 1 :=
  ⟨by decide, fact_of_le_one_eq_one (-7) (by decide)⟩

/-- **C8.** `hasDecimal` returns `true` exactly when the distance between
its argument and the truncation of its argument exceeds `1e-9`; it is
`false` on `3.0`, `false` on `3.0000000001` (fractional part within the
tolerance), and `true` on `3.1`. -/
theorem hasDecimal_iff_far_from_trunc (x : ℚ) :
    (hasDecimal x = true ↔ abso (x - (trunc x : ℚ)) > 1 / 10 ^ 9)
    ∧ hasDecimal 3 = false
    ∧ hasDecimal (30000000001 / 10 ^ 10) = false
    ∧ hasDecimal (31 / 10) = true := by
  refine ⟨by simp [hasDecimal], ?_, ?_, ?_⟩
  · simp only [hasDecimal, decide_eq_false_iff_not]
    norm_num [trunc, abso]
  · simp only [hasDecimal, decide_eq_false_iff_not]
    norm_num [trunc, abso]
  · simp only [hasDecimal, decide_eq_true_eq]
    norm_num [trunc, abso]

lemma nrLoop_eq_iterate (x : ℚ) : ∀ (n : ℕ) (g : ℚ),
    nrLoop x n g = (fun g => (g + x / g) / 2)^[n] g := by
  intro n
  induction n with
  | zero => intro g; rfl
  | succ m ih =>
      intro g
      rw [nrLoop, ih, Function.iterate_succ_apply]

/-- **C2.** `mySqrt` reports an error and returns `0` on negative input;
on every `x ≥ 0` it performs exactly 100 Newton–Raphson iterations
`guess = (guess + x/guess)/2` from the initial guess `x/2`, with no early
termination, and returns the final guess. -/
theorem mySqrt_hundred_newton_iterations (x : ℚ) :
    (x < 0 → mySqrt x = (0, some "Error: Square root of negative number!"))
    ∧ (0 ≤ x → mySqrt x = ((fun g => (g + x / g) / 2)^[100] (x / 2), none)) := by
  constructor
  · intro h
    rw [mySqrt, if_pos h]
  · intro h
    rw [mySqrt, if_neg (not_lt.mpr h), nrLoop_eq_iterate]

/-- Witness for C2 at input `4`. -/
theorem mySqrt_hundred_newton_iterations_witness :
    (0 : ℚ) ≤ 4 ∧ mySqrt 4 = ((fun g => (g + 4 / g) / 2)^[100] (4 / 2), none) :=
  ⟨by norm_num, (mySqrt_hundred_newton_iterations 4).2 (by norm_num)⟩

lemma nrLoopG_zero_guess (x : ℚ) :
    ∀ n : ℕ, nrLoopG x (n + 1) 0 = none := by
  intro n
  rw [nrLoopG, nrStepG, if_pos rfl]

/-- **C3** (the claim is refuted; the spec flags this as a latent defect):
on input `0` the initial guess is `0 / 2 = 0` and the very first
Newton–Raphson iteration divides `x / guess` with a zero `guess`, so in the
guarded-division embedding the division-by-zero branch IS reached and the
whole run aborts with `none`. -/
theorem mySqrtG_zero_reaches_div_by_zero :
    mySqrtG 0 = none ∧ nrStepG 0 ((0 : ℚ) / 2) = none := by
  constructor
  · rw [mySqrtG, if_neg (lt_irrefl 0),
      show ((0 : ℚ) / 2) = 0 from by norm_num,
      show (100 : ℕ) = 99 + 1 from rfl, nrLoopG_zero_guess 0 99]
    rfl
  · rw [show ((0 : ℚ) / 2) = 0 from by norm_num, nrStepG, if_pos rfl]

/-- **C4.** `ln` fails exactly on non-positive inputs: input `0` yields the
not-defined message and sentinel `0`; every negative input yields the
invalid-input message and sentinel `0`.  Both are ordinary return values
(the function total on `ℚ`), so no structured failure propagates. -/
theorem ln_error_branches (x : ℚ) :
    ln 0 = (0, some "NOT DEFINED")
    ∧ (x < 0 → ln x = (0, some "Invalid Input")) := by
  constructor
  · rw [ln, dif_pos rfl]
  · intro h
    rw [ln, dif_neg (ne_of_lt h), dif_pos h]

/-- Witness for C4 at input `-1`. -/
theorem ln_error_branches_witness :
    (-1 : ℚ) < 0 ∧ ln (-1) = (0, some "Invalid Input") :=
  ⟨by norm_num, (ln_error_branches (-1)).2 (by norm_num)⟩

/-- **C1.** For `x > 0`, `ln x` is `k + T(r)` with no error output, where
`(r, k)` comes from the two reduction loops (divide by `e` while the value
exceeds `1.5`, counting up; multiply by `e` while it is below `0.5`,
counting down), the reduced argument satisfies `r ∈ [0.5, 1.5]` and
`x = r * e^k` exactly, and `T(r)` is the alternating Taylor series
`Σ (-1)^(n+1) (r-1)^n / n` summed up to (and including) the first term
whose magnitude is `≤ 1e-10`. -/
theorem ln_reduces_and_sums_taylor (x : ℚ) (hx : 0 < x) :
    ∃ h : lnConv ((lnReduce x hx).1 - 1),
      ln x = (((lnReduce x hx).2 : ℚ) + lnNear1 (lnReduce x hx).1 h, none)
      ∧ 1 / 2 ≤ (lnReduce x hx).1
      ∧ (lnReduce x hx).1 ≤ 3 / 2
      ∧ x = (lnReduce x hx).1 * eC ^ (lnReduce x hx).2
      ∧ (∀ j < lnDivCount x hx, 3 / 2 < x / eC ^ j)
      ∧ x / eC ^ lnDivCount x hx ≤ 3 / 2
      ∧ (∀ j < lnMulCount (x / eC ^ lnDivCount x hx) (lnDivRem_pos x hx),
          (x / eC ^ lnDivCount x hx) * eC ^ j < 1 / 2)
      ∧ (lnReduce x hx).1
          = (x / eC ^ lnDivCount x hx)
              * eC ^ lnMulCount (x / eC ^ lnDivCount x hx) (lnDivRem_pos x hx)
      ∧ (lnReduce x hx).2
          = (lnDivCount x hx : ℤ)
              - (lnMulCount (x / eC ^ lnDivCount x hx) (lnDivRem_pos x hx) : ℤ)
      ∧ lnNear1 (lnReduce x hx).1 h
          = ∑ n in Finset.range (lnStop ((lnReduce x hx).1 - 1) h),
              lnTerm ((lnReduce x hx).1 - 1) (n + 1)
      ∧ 1 ≤ lnStop ((lnReduce x hx).1 - 1) h
      ∧ abso (lnTerm ((lnReduce x hx).1 - 1) (lnStop ((lnReduce x hx).1 - 1) h))
          ≤ 1 / 10 ^ 10
      ∧ (∀ m, 1 ≤ m → m < lnStop ((lnReduce x hx).1 - 1) h →
          1 / 10 ^ 10 < abso (lnTerm ((lnReduce x hx).1 - 1) m))
      ∧ (∀ n : ℕ, 1 ≤ n →
          lnTerm ((lnReduce x hx).1 - 1) n
            = (-1) ^ (n + 1) * ((lnReduce x hx).1 - 1) ^ n / n) := by
  refine ⟨lnConv_reduced x hx, ?_, (lnReduce_mem x hx).1, (lnReduce_mem x hx).2,
    lnReduce_eq x hx, ?_, Nat.find_spec (exists_div_le x hx), ?_, rfl, rfl, rfl,
    Nat.le_add_left 1 _, ?_, ?_, ?_⟩
  · rw [ln, dif_neg hx.ne', dif_neg (not_lt.mpr hx.le)]
  · intro j hj
    exact not_le.mp (Nat.find_min (exists_div_le x hx) hj)
  · intro j hj
    exact not_le.mp (Nat.find_min (exists_mul_ge _ (lnDivRem_pos x hx)) hj)
  · exact Nat.find_spec (lnConv_reduced x hx)
  · intro m hm1 hm2
    have hlt : m - 1 < Nat.find (lnConv_reduced x hx) := by
      have : lnStop ((lnReduce x hx).1 - 1) (lnConv_reduced x hx)
          = Nat.find (lnConv_reduced x hx) + 1 := rfl
      omega
    have := Nat.find_min (lnConv_reduced x hx) hlt
    rw [show m - 1 + 1 = m from by omega] at this
    exact not_le.mp this
  · intro n hn
    rw [lnTerm, power_eq_pow]
    rcases Nat.even_or_odd n with he | ho
    · rw [if_pos (Nat.even_iff.mp he), Odd.neg_one_pow he.add_one]
    · rw [if_neg (by rw [Nat.odd_iff.mp ho]; norm_num),
        Even.neg_one_pow ho.add_one]

/-- Witness for C1 at input `5`: the reduced argument lies in `[0.5, 1.5]`
and the result carries no error message. -/
theorem ln_reduces_and_sums_taylor_witness :
    (0 : ℚ) < 5
    ∧ 1 / 2 ≤ (lnReduce 5 (by norm_num)).1
    ∧ (lnReduce 5 (by norm_num)).1 ≤ 3 / 2
    ∧ (ln 5).2 = none := by
  refine ⟨by norm_num, ?_, ?_, ?_⟩
  · obtain ⟨h, hc⟩ := ln_reduces_and_sums_taylor 5 (by norm_num)
    exact hc.2.1
  · obtain ⟨h, hc⟩ := ln_reduces_and_sums_taylor 5 (by norm_num)
    exact hc.2.2.1
  · obtain ⟨h, hc⟩ := ln_reduces_and_sums_taylor 5 (by norm_num)
    rw [hc.1]

end Calc

namespace Cipher

lemma caesarChar_lower (sv : ℤ) (c : ℕ) (h1 : 97 ≤ c) (h2 : c ≤ 122) :
    caesarChar sv c = (((c : ℤ) - 97 + sv + 26).tmod 26 + 97).toNat := by
  rw [caesarChar, if_pos ⟨h1, h2⟩]

lemma caesarChar_upper (sv : ℤ) (c : ℕ) (h1 : 65 ≤ c) (h2 : c ≤ 90) :
    caesarChar sv c = (((c : ℤ) - 65 + sv + 26).tmod 26 + 65).toNat := by
  rw [caesarChar, if_neg (by omega), if_pos ⟨h1, h2⟩]

lemma caesarChar_other (sv : ℤ) (c : ℕ) (h1 : ¬(97 ≤ c ∧ c ≤ 122))
    (h2 : ¬(65 ≤ c ∧ c ≤ 90)) : caesarChar sv c = c := by
  rw [caesarChar, if_neg h1, if_neg h2]

lemma caesarChar_inv (c : ℕ) :
    caesarChar ((-3 : ℤ).tmod 26) (caesarChar ((3 : ℤ).tmod 26) c) = c := by
  rw [show ((3 : ℤ).tmod 26) = 3 from by decide,
    show ((-3 : ℤ).tmod 26) = -3 from by decide]
  by_cases hl : 97 ≤ c ∧ c ≤ 122
  · rw [caesarChar_lower 3 c hl.1 hl.2,
      Int.tmod_eq_emod (by omega) (by omega)]
    rw [caesarChar_lower (-3) _ (by omega) (by omega),
      Int.tmod_eq_emod (by omega) (by omega)]
    omega
  · by_cases hu : 65 ≤ c ∧ c ≤ 90
    · rw [caesarChar_upper 3 c hu.1 hu.2,
        Int.tmod_eq_emod (by omega) (by omega)]
      rw [caesarChar_upper (-3) _ (by omega) (by omega),
        Int.tmod_eq_emod (by omega) (by omega)]
      omega
    · rw [caesarChar_other 3 c hl hu, caesarChar_other (-3) c hl hu]

lemma caesarStr_inv (s : List ℕ) : caesarStr (-3) (caesarStr 3 s) = s := by
  simp only [caesarStr, List.map_map]
  induction s with
  | nil => rfl
  | cons a t ih =>
      simp only [List.map_cons, Function.comp_apply, caesarChar_inv a, ih]

/-- **C6.** Applying the Caesar transformation with shift `3` and then with
shift `-3` restores any input string; each pass leaves non-letters
unchanged and preserves letter case; in particular the round trip holds for
`"Attack"` (character codes `[65, 116, 116, 97, 99, 107]`). -/
theorem caesar_roundtrip :
    (∀ s : List ℕ, caesarStr (-3) (caesarStr 3 s) = s)
    ∧ (∀ (sv : ℤ) (c : ℕ), ¬(97 ≤ c ∧ c ≤ 122) → ¬(65 ≤ c ∧ c ≤ 90) →
        caesarChar sv c = c)
    ∧ (∀ c : ℕ, 97 ≤ c → c ≤ 122 →
        (97 ≤ caesarChar ((3 : ℤ).tmod 26) c ∧ caesarChar ((3 : ℤ).tmod 26) c ≤ 122)
        ∧ (97 ≤ caesarChar ((-3 : ℤ).tmod 26) c ∧ caesarChar ((-3 : ℤ).tmod 26) c ≤ 122))
    ∧ (∀ c : ℕ, 65 ≤ c → c ≤ 90 →
        (65 ≤ caesarChar ((3 : ℤ).tmod 26) c ∧ caesarChar ((3 : ℤ).tmod 26) c ≤ 90)
        ∧ (65 ≤ caesarChar ((-3 : ℤ).tmod 26) c ∧ caesarChar ((-3 : ℤ).tmod 26) c ≤ 90))
    ∧ caesarStr (-3) (caesarStr 3 [65, 116, 116, 97, 99, 107])
        = [65, 116, 116, 97, 99, 107] := by
  refine ⟨caesarStr_inv, caesarChar_other, ?_, ?_, caesarStr_inv _⟩
  · intro c h1 h2
    rw [show ((3 : ℤ).tmod 26) = 3 from by decide,
      show ((-3 : ℤ).tmod 26) = -3 from by decide,
      caesarChar_lower 3 c h1 h2, caesarChar_lower (-3) c h1 h2,
      Int.tmod_eq_emod (by omega) (by omega),
      Int.tmod_eq_emod (by omega) (by omega)]
    omega
  · intro c h1 h2
    rw [show ((3 : ℤ).tmod 26) = 3 from by decide,
      show ((-3 : ℤ).tmod 26) = -3 from by decide,
      caesarChar_upper 3 c h1 h2, caesarChar_upper (-3) c h1 h2,
      Int.tmod_eq_emod (by omega) (by omega),
      Int.tmod_eq_emod (by omega) (by omega)]
    omega

/-- Witness for C6: the non-letter clause applied to the space character
(code `32`) at shift `5`. -/
theorem caesar_roundtrip_witness :
    ¬(97 ≤ 32 ∧ 32 ≤ 122) ∧ ¬(65 ≤ 32 ∧ 32 ≤ 90) ∧ caesarChar 5 32 = 32 :=
  ⟨by decide, by decide, caesar_roundtrip.2.1 5 32 (by decide) (by decide)⟩

lemma breakLoop_spec (s : List ℕ) :
    ∀ (l : List ℤ) (bs bsc : ℤ) (bt : List ℕ), l.Pairwise (· < ·) →
      (∀ t ∈ l, (shiftScore t s : ℤ) ≤ (breakLoop s l (bs, bsc, bt)).2.1)
      ∧ bsc ≤ (breakLoop s l (bs, bsc, bt)).2.1
      ∧ (breakLoop s l (bs, bsc, bt) = (bs, bsc, bt)
            ∧ (∀ t ∈ l, (shiftScore t s : ℤ) ≤ bsc)
         ∨ ∃ t, t ∈ l
            ∧ (breakLoop s l (bs, bsc, bt)).1 = t
            ∧ (breakLoop s l (bs, bsc, bt)).2.1 = (shiftScore t s : ℤ)
            ∧ (breakLoop s l (bs, bsc, bt)).2.2 = decodeStr t s
            ∧ bsc < (shiftScore t s : ℤ)
            ∧ ∀ u ∈ l, (shiftScore u s : ℤ) = (shiftScore t s : ℤ) → t ≤ u) := by
  intro l
  induction l with
  | nil =>
      intro bs bsc bt _
      exact ⟨by simp [breakLoop], le_refl _, Or.inl ⟨rfl, by simp⟩⟩
  | cons shift rest ih =>
      intro bs bsc bt hpw
      obtain ⟨hlt, hpw'⟩ := List.pairwise_cons.mp hpw
      by_cases hgt : (shiftScore shift s : ℤ) > bsc
      · have hstep : breakLoop s (shift :: rest) (bs, bsc, bt)
            = breakLoop s rest (shift, (shiftScore shift s : ℤ), decodeStr shift s) := by
          rw [breakLoop, if_pos hgt]
        obtain ⟨A, B, C⟩ := ih shift (shiftScore shift s : ℤ) (decodeStr shift s) hpw'
        rw [hstep]
        refine ⟨?_, le_trans (le_of_lt hgt) B, ?_⟩
        · intro t ht
          rcases List.mem_cons.mp ht with h | h
          · exact h ▸ B
          · exact A t h
        · rcases C with ⟨heq, _⟩ | ⟨t, htmem, h1, h2, h3, h4, h5⟩
          · right
            refine ⟨shift, List.mem_cons_self shift rest, ?_, ?_, ?_, hgt, ?_⟩
            · rw [heq]
            · rw [heq]
            · rw [heq]
            · intro u hu _
              rcases List.mem_cons.mp hu with h | h
              · exact h ▸ le_refl shift
              · exact (hlt u h).le
          · right
            refine ⟨t, List.mem_cons_of_mem _ htmem, h1, h2, h3,
              lt_trans hgt h4, ?_⟩
            intro u hu hscore
            rcases List.mem_cons.mp hu with h | h
            · subst h
              exact absurd h4 (by rw [hscore]; exact lt_irrefl _)
            · exact h5 u h hscore
      · push_neg at hgt
        have hstep : breakLoop s (shift :: rest) (bs, bsc, bt)
            = breakLoop s rest (bs, bsc, bt) := by
          rw [breakLoop, if_neg (not_lt.mpr hgt)]
        obtain ⟨A, B, C⟩ := ih bs bsc bt hpw'
        rw [hstep]
        refine ⟨?_, B, ?_⟩
        · intro t ht
          rcases List.mem_cons.mp ht with h | h
          · exact h ▸ le_trans hgt B
          · exact A t h
        · rcases C with ⟨heq, hall⟩ | ⟨t, htmem, h1, h2, h3, h4, h5⟩
          · left
            refine ⟨heq, ?_⟩
            intro t ht
            rcases List.mem_cons.mp ht with h | h
            · exact h ▸ hgt
            · exact hall t h
          · right
            refine ⟨t, List.mem_cons_of_mem _ htmem, h1, h2, h3, h4, ?_⟩
            intro u hu hscore
            rcases List.mem_cons.mp hu with h | h
            · subst h
              exact absurd (lt_of_le_of_lt hgt h4) (by rw [hscore]; exact lt_irrefl _)
            · exact h5 u h hscore

/-- **C5.** The brute-force breaker tries every shift `1..25`, reports the
decoding and shift with the highest vowel score (ties resolved in favour of
the lowest shift), and consequently recovers the encoding shift of any
all-lowercase plaintext whenever that shift uniquely maximizes the vowel
count among the 25 candidates. -/
theorem breakCipher_best_shift (c : List ℕ) :
    (breakCipher c).1 ∈ shiftList
    ∧ (breakCipher c).2.1 = (shiftScore (breakCipher c).1 c : ℤ)
    ∧ (breakCipher c).2.2 = decodeStr (breakCipher c).1 c
    ∧ (∀ t ∈ shiftList, shiftScore t c ≤ shiftScore (breakCipher c).1 c)
    ∧ (∀ t ∈ shiftList, shiftScore t c = shiftScore (breakCipher c).1 c →
        (breakCipher c).1 ≤ t)
    ∧ (∀ (plain : List ℕ) (s : ℤ), s ∈ shiftList →
        (∀ ch ∈ plain, 97 ≤ ch ∧ ch ≤ 122) →
        c = caesarStr s plain →
        (∀ t ∈ shiftList, t ≠ s → shiftScore t c < shiftScore s c) →
        (breakCipher c).1 = s) := by
  obtain ⟨A, B, C⟩ := breakLoop_spec c shiftList 0 (-1) [] (by decide)
  rcases C with ⟨_, hall⟩ | ⟨t, htmem, h1, h2, h3, _, h5⟩
  · exact absurd (hall 1 (by decide)) (by
      intro h
      have := Int.natCast_nonneg (shiftScore 1 c)
      omega)
  have hmax : ∀ u ∈ shiftList, shiftScore u c ≤ shiftScore (breakCipher c).1 c := by
    intro u hu
    have := A u hu
    rw [breakCipher] at *
    rw [h2] at this
    rw [h1]
    exact_mod_cast this
  refine ⟨?_, ?_, ?_, hmax, ?_, ?_⟩
  · rw [breakCipher, h1]; exact htmem
  · rw [breakCipher, h2, h1]
  · rw [breakCipher, h3, h1]
  · intro u hu hscore
    rw [breakCipher, h1]
    refine h5 u hu ?_
    rw [breakCipher, h1] at hscore
    exact_mod_cast hscore
  · intro plain s hs _ _ huniq
    by_contra hne
    have hlt := huniq (breakCipher c).1 (by rw [breakCipher, h1]; exact htmem) hne
    exact absurd (hmax s hs) (by omega)

/-- Witness for C5: the plaintext `"aeiou"` (codes `[97,101,105,111,117]`)
encoded with shift `3` gives `"dhlrx"` (codes `[100,104,108,114,120]`), and
the breaker recovers shift `3`. -/
theorem breakCipher_best_shift_witness :
    (breakCipher [100, 104, 108, 114, 120]).1 = 3 :=
  (breakCipher_best_shift [100, 104, 108, 114, 120]).2.2.2.2.2
    [97, 101, 105, 111, 117] 3 (by decide) (by decide) (by decide) (by decide)

end Cipher
